import Mathlib

/-!
Madgwick orientation filter (`src/madgwick.c`)

A shallow embedding of `filterUpdateC`, the single update function of the
repository, together with the properties its specification states.

Modelling decisions:

* The arithmetic is that of a field `K` (the theorems take `K = ℝ`), not of
  IEEE single precision: rounding, overflow and underflow are not modelled.
* `sqrt` of `math.h` is a parameter of the embedding; the theorems pass
  `Real.sqrt`.
* The two constant expressions of the source whose value as a `float` is not
  the real number they are written as are taken at the value the compiler gives
  them: the literal `3.14159265358979f` is the binary32 number
  `13176795 / 2^22 = 3.1415927410125732...` (above `π`), and `5.0f / 180.0f`
  is the binary32 number `14913081 / 2^29 = 0.027777777984738...`.  The other
  constants (`0.5f`, `2.0f`, `1.0f`, `3.0f / 4.0f`) are exact.
* The source divides by three computed norms without any guard.  Over the
  reals a norm `sqrt (x*x + ...)` is zero only when every component it is
  computed from is zero, so each such division is `0 / 0`.  In IEEE arithmetic
  that is a NaN, and a NaN propagates through every later operation of the
  function into all four components of the returned struct.  The embedding
  writes `none` for that outcome: `none` is the model of the not-a-number
  quaternion, it is not an error reported to the caller (the C function has no
  error channel: it returns `struct Q` by value).
-/

namespace Madgwick

/-- Quaternion of the source (`struct Q`): `q1` is the scalar part. -/
structure Q (K : Type) where
  q1 : K
  q2 : K
  q3 : K
  q4 : K

/-- Vector in 3d space (`struct V`). -/
structure V (K : Type) where
  x : K
  y : K
  z : K

section Embedding

variable {K : Type} [Field K] [DecidableEq K]

/-- Source line 7: `#define gyroMeasError 3.14159265358979f * (5.0f / 180.0f)`.  The
literal is the binary32 number `13176795 / 2^22` and the quotient of the two binary32
literals is the binary32 number `14913081 / 2^29`. -/
def gyroMeasError : K := (13176795 / 4194304) * (14913081 / 536870912)

/-- Source line 8: `#define beta sqrt(3.0f / 4.0f) * gyroMeasError`, with the inner macro
expanded textually as the preprocessor does; C parses the product left to right.  The two
constants are the binary32 values named at `gyroMeasError`; `3.0f / 4.0f` is exact. -/
def beta (sqrt : K → K) : K :=
  sqrt (3 / 4) * (13176795 / 4194304) * (14913081 / 536870912)

/-- Source line 46: the norm the accelerometer reading is divided by. -/
def accelNorm (sqrt : K → K) (a : V K) : K :=
  sqrt (a.x * a.x + a.y * a.y + a.z * a.z)

/-- Source lines 47 to 49: `a.x /= norm; a.y /= norm; a.z /= norm;`. -/
def scaleV (a : V K) (norm : K) : V K :=
  ⟨a.x / norm, a.y / norm, a.z / norm⟩

/-- Source lines 45 to 49: normalise the accelerometer measurement. -/
def normaliseAccel (sqrt : K → K) (a : V K) : Option (V K) :=
  let norm := accelNorm sqrt a
  if norm = 0 then none
  else some (scaleV a norm)

/-- Source lines 41 to 43 and 52 to 54: the objective function `f_1, f_2, f_3`, computed
from the prior quaternion and the normalised accelerometer reading. -/
def objective (q : Q K) (a : V K) : V K :=
  let twoSEq_1 := 2 * q.q1
  let twoSEq_2 := 2 * q.q2
  let twoSEq_3 := 2 * q.q3
  let f_1 := twoSEq_2 * q.q4 - twoSEq_1 * q.q3 - a.x
  let f_2 := twoSEq_1 * q.q2 + twoSEq_3 * q.q4 - a.y
  let f_3 := 1 - twoSEq_2 * q.q2 - twoSEq_3 * q.q3 - a.z
  ⟨f_1, f_2, f_3⟩

/-- Source lines 41 to 43 and 55 to 66: the six stored Jacobian terms and the gradient
`SEqHatDot_1 .. SEqHatDot_4` before it is normalised; `f` is the objective function. -/
def SEqHatDot (q : Q K) (f : V K) : Q K :=
  let twoSEq_1 := 2 * q.q1
  let twoSEq_2 := 2 * q.q2
  let twoSEq_3 := 2 * q.q3
  let f_1 := f.x
  let f_2 := f.y
  let f_3 := f.z
  let J_11or24 := twoSEq_3
  let J_12or23 := 2 * q.q4
  let J_13or22 := twoSEq_1
  let J_14or21 := twoSEq_2
  let J_32 := 2 * J_14or21
  let J_33 := 2 * J_11or24
  let SEqHatDot_1 := J_14or21 * f_2 - J_11or24 * f_1
  let SEqHatDot_2 := J_12or23 * f_1 + J_13or22 * f_2 - J_32 * f_3
  let SEqHatDot_3 := J_12or23 * f_2 - J_33 * f_3 - J_13or22 * f_1
  let SEqHatDot_4 := J_14or21 * f_1 + J_11or24 * f_2
  ⟨SEqHatDot_1, SEqHatDot_2, SEqHatDot_3, SEqHatDot_4⟩

/-- Source lines 69 and 88: the 4-component norm a quaternion is divided by. -/
def quatNorm (sqrt : K → K) (p : Q K) : K :=
  sqrt (p.q1 * p.q1 + p.q2 * p.q2 + p.q3 * p.q3 + p.q4 * p.q4)

/-- Source lines 70 to 73 and 89 to 92: the four divisions by `norm`. -/
def scaleQ (p : Q K) (norm : K) : Q K :=
  ⟨p.q1 / norm, p.q2 / norm, p.q3 / norm, p.q4 / norm⟩

/-- Source lines 68 to 73 (the gradient) and 87 to 92 (the integrated quaternion): divide
the four components by the 4-component norm. -/
def normaliseQ (sqrt : K → K) (p : Q K) : Option (Q K) :=
  let norm := quatNorm sqrt p
  if norm = 0 then none
  else some (scaleQ p norm)

/-- Source lines 37 to 40 and 75 to 79: the quaternion derivative measured by the
gyroscopes, `SEqDot_omega_1 .. SEqDot_omega_4`. -/
def SEqDot_omega (q : Q K) (w : V K) : Q K :=
  let halfSEq_1 := 0.5 * q.q1
  let halfSEq_2 := 0.5 * q.q2
  let halfSEq_3 := 0.5 * q.q3
  let halfSEq_4 := 0.5 * q.q4
  let SEqDot_omega_1 := -halfSEq_2 * w.x - halfSEq_3 * w.y - halfSEq_4 * w.z
  let SEqDot_omega_2 := halfSEq_1 * w.x + halfSEq_3 * w.z - halfSEq_4 * w.y
  let SEqDot_omega_3 := halfSEq_1 * w.y - halfSEq_2 * w.z + halfSEq_4 * w.x
  let SEqDot_omega_4 := halfSEq_1 * w.z + halfSEq_2 * w.y - halfSEq_3 * w.x
  ⟨SEqDot_omega_1, SEqDot_omega_2, SEqDot_omega_3, SEqDot_omega_4⟩

/-- Source lines 81 to 85: compute then integrate the estimated quaternion derivative;
`d` is the gyroscope derivative and `g` the normalised gradient. -/
def integrate (sqrt : K → K) (q d g : Q K) (deltat : K) : Q K :=
  ⟨q.q1 + (d.q1 - (beta sqrt * g.q1)) * deltat,
   q.q2 + (d.q2 - (beta sqrt * g.q2)) * deltat,
   q.q3 + (d.q3 - (beta sqrt * g.q3)) * deltat,
   q.q4 + (d.q4 - (beta sqrt * g.q4)) * deltat⟩

/-- Source lines 28 to 95: `filterUpdateC`.  The statements of the source are run in
their order; the gyroscope derivative does not depend on the two normalisations before
it, so computing it after them, as the source does, is the same as any other place. -/
def filterUpdateC (sqrt : K → K) (w a : V K) (q : Q K) (deltat : K) : Option (Q K) :=
  match normaliseAccel sqrt a with
  | none => none
  | some an =>
    match normaliseQ sqrt (SEqHatDot q (objective q an)) with
    | none => none
    | some g => normaliseQ sqrt (integrate sqrt q (SEqDot_omega q w) g deltat)

/-- The un-normalised gradient `SEqHatDot_1 .. SEqHatDot_4` that `filterUpdateC` computes
from the raw accelerometer reading and the prior quaternion (the value at source line 66).
It is the value of the program variables only when the accelerometer norm is not zero. -/
def gradientOf (sqrt : K → K) (a : V K) (q : Q K) : Q K :=
  SEqHatDot q (objective q (scaleV a (accelNorm sqrt a)))

/-- The normalised gradient of `filterUpdateC` (the value at source line 73), meaningful
when the accelerometer norm and the gradient norm are not zero. -/
def normalisedGradientOf (sqrt : K → K) (a : V K) (q : Q K) : Q K :=
  scaleQ (gradientOf sqrt a q) (quatNorm sqrt (gradientOf sqrt a q))

/-- The integrated quaternion of `filterUpdateC` before the last normalisation (the value
of `q` at source line 85), meaningful when the accelerometer norm and the gradient norm are
not zero. -/
def integratedOf (sqrt : K → K) (w a : V K) (q : Q K) (deltat : K) : Q K :=
  integrate sqrt q (SEqDot_omega q w) (normalisedGradientOf sqrt a q) deltat

end Embedding

/-- Source lines 75 to 92 (gyroscope derivative, integration, last normalisation) run with
a zero vector in the place of the normalised gradient.  `filterUpdateC` never runs them so:
the definition isolates what those steps do when the accelerometer correction is absent. -/
def gyroOnlyUpdate {K : Type} [Field K] [DecidableEq K] (sqrt : K → K) (w : V K) (q : Q K)
    (deltat : K) : Option (Q K) :=
  normaliseQ sqrt (integrate sqrt q (SEqDot_omega q w) ⟨0, 0, 0, 0⟩ deltat)

/-- Squared 4-component Euclidean norm. -/
def normSq {K : Type} [Field K] (p : Q K) : K :=
  p.q1 ^ 2 + p.q2 ^ 2 + p.q3 ^ 2 + p.q4 ^ 2

/-- The gravity direction implied by a quaternion, as the specification writes it. -/
def impliedGravity {K : Type} [Field K] (q : Q K) : V K :=
  ⟨2 * q.q2 * q.q4 - 2 * q.q1 * q.q3, 2 * q.q1 * q.q2 + 2 * q.q3 * q.q4,
    1 - 2 * q.q2 ^ 2 - 2 * q.q3 ^ 2⟩

/-- The quaternion of the source read as a Hamilton quaternion, `q1` the scalar part. -/
def Q.toQuaternion (q : Q ℝ) : Quaternion ℝ := ⟨q.q1, q.q2, q.q3, q.q4⟩

/-- A Hamilton quaternion written back as a quaternion of the source. -/
def Q.ofQuaternion (p : Quaternion ℝ) : Q ℝ := ⟨p.re, p.imI, p.imJ, p.imK⟩

/-- The pure quaternion `(0, x, y, z)` built from a vector. -/
def V.toPure (v : V ℝ) : Quaternion ℝ := ⟨0, v.x, v.y, v.z⟩

/-- Component `i` of a quaternion, counted from zero. -/
def Q.get {K : Type} (q : Q K) (i : Fin 4) : K :=
  match i with
  | 0 => q.q1
  | 1 => q.q2
  | 2 => q.q3
  | 3 => q.q4

/-- The quaternion with component `i` replaced by `t`. -/
def Q.set {K : Type} (q : Q K) (i : Fin 4) (t : K) : Q K :=
  match i with
  | 0 => { q with q1 := t }
  | 1 => { q with q2 := t }
  | 2 => { q with q3 := t }
  | 3 => { q with q4 := t }

/-- Component `j` of a vector, counted from zero. -/
def V.get {K : Type} (v : V K) (j : Fin 3) : K :=
  match j with
  | 0 => v.x
  | 1 => v.y
  | 2 => v.z

/-- The matrix the claims call `J`: entry `(j, i)` is the partial derivative of `f_(j+1)`
in the quaternion component `q(i+1)`.  It is written out here from the formulas of the
objective function; `hasDerivAt_objective` below proves that each entry is that
derivative. -/
def objectiveJacobian (q : Q ℝ) : Fin 3 → Fin 4 → ℝ :=
  ![![-(2 * q.q3), 2 * q.q4, -(2 * q.q1), 2 * q.q2],
    ![2 * q.q2, 2 * q.q1, 2 * q.q4, 2 * q.q3],
    ![0, -(4 * q.q2), -(4 * q.q3), 0]]

/-- The gravity reference `(0,0,1)` rotated by a quaternion: `conj q ⊗ (0,0,0,1) ⊗ q`. -/
def rotatedGravity (q : Q ℝ) : Quaternion ℝ :=
  star q.toQuaternion * (⟨0, 0, 1⟩ : V ℝ).toPure * q.toQuaternion

/-- Component-wise negation of a quaternion. -/
def Q.neg {K : Type} [Field K] (p : Q K) : Q K := ⟨-p.q1, -p.q2, -p.q3, -p.q4⟩

/-- Component-wise difference of two quaternions. -/
def Q.sub {K : Type} [Field K] (p r : Q K) : Q K :=
  ⟨p.q1 - r.q1, p.q2 - r.q2, p.q3 - r.q3, p.q4 - r.q4⟩

/-- The 4-component dot product. -/
def Q.dot {K : Type} [Field K] (p r : Q K) : K :=
  p.q1 * r.q1 + p.q2 * r.q2 + p.q3 * r.q3 + p.q4 * r.q4

section Lemmas

variable {K : Type} [Field K] [DecidableEq K]

/-- When a norm is zero the normalisation has no result. -/
lemma normaliseQ_of_zero (sqrt : K → K) (p : Q K) (h : quatNorm sqrt p = 0) :
    normaliseQ sqrt p = none := by
  simp [normaliseQ, h]

/-- When a norm is not zero the normalisation divides by it. -/
lemma normaliseQ_of_ne (sqrt : K → K) (p : Q K) (h : quatNorm sqrt p ≠ 0) :
    normaliseQ sqrt p = some (scaleQ p (quatNorm sqrt p)) := by
  simp [normaliseQ, h]

/-- A zero accelerometer norm stops the update at its first division. -/
lemma filterUpdateC_of_accelNorm_zero (sqrt : K → K) (w a : V K) (q : Q K) (deltat : K)
    (h : accelNorm sqrt a = 0) : filterUpdateC sqrt w a q deltat = none := by
  simp [filterUpdateC, normaliseAccel, h]

/-- A zero gradient norm stops the update at its second division. -/
lemma filterUpdateC_of_gradNorm_zero (sqrt : K → K) (w a : V K) (q : Q K) (deltat : K)
    (h : quatNorm sqrt (gradientOf sqrt a q) = 0) :
    filterUpdateC sqrt w a q deltat = none := by
  unfold filterUpdateC normaliseAccel
  by_cases ha : accelNorm sqrt a = 0
  · simp [ha]
  · have hg : normaliseQ sqrt (SEqHatDot q (objective q (scaleV a (accelNorm sqrt a))))
        = none := normaliseQ_of_zero sqrt _ h
    simp [ha, hg]

/-- With the first two norms not zero the update is the last normalisation applied to the
integrated quaternion. -/
lemma filterUpdateC_eq_normaliseQ (sqrt : K → K) (w a : V K) (q : Q K) (deltat : K)
    (ha : accelNorm sqrt a ≠ 0) (hg : quatNorm sqrt (gradientOf sqrt a q) ≠ 0) :
    filterUpdateC sqrt w a q deltat = normaliseQ sqrt (integratedOf sqrt w a q deltat) := by
  have hn : normaliseQ sqrt (SEqHatDot q (objective q (scaleV a (accelNorm sqrt a))))
      = some (normalisedGradientOf sqrt a q) := normaliseQ_of_ne sqrt _ hg
  simp [filterUpdateC, normaliseAccel, ha, hn, integratedOf]

/-- With the three norms not zero the update returns the integrated quaternion divided by
its norm. -/
lemma filterUpdateC_eq_some (sqrt : K → K) (w a : V K) (q : Q K) (deltat : K)
    (ha : accelNorm sqrt a ≠ 0) (hg : quatNorm sqrt (gradientOf sqrt a q) ≠ 0)
    (hq : quatNorm sqrt (integratedOf sqrt w a q deltat) ≠ 0) :
    filterUpdateC sqrt w a q deltat
      = some (scaleQ (integratedOf sqrt w a q deltat)
          (quatNorm sqrt (integratedOf sqrt w a q deltat))) := by
  rw [filterUpdateC_eq_normaliseQ sqrt w a q deltat ha hg, normaliseQ_of_ne sqrt _ hq]

end Lemmas

/-- Dividing a real quaternion by its norm, when that norm is not zero, gives squared
norm one. -/
lemma normSq_scaleQ (p : Q ℝ) (h : quatNorm Real.sqrt p ≠ 0) :
    normSq (scaleQ p (quatNorm Real.sqrt p)) = 1 := by
  have hs : 0 ≤ p.q1 * p.q1 + p.q2 * p.q2 + p.q3 * p.q3 + p.q4 * p.q4 :=
    add_nonneg (add_nonneg (add_nonneg (mul_self_nonneg _) (mul_self_nonneg _))
      (mul_self_nonneg _)) (mul_self_nonneg _)
  have hmul := Real.mul_self_sqrt hs
  unfold quatNorm at h ⊢
  have hn : Real.sqrt (p.q1 * p.q1 + p.q2 * p.q2 + p.q3 * p.q3 + p.q4 * p.q4) ^ 2 ≠ 0 :=
    pow_ne_zero 2 h
  simp only [normSq, scaleQ, div_pow, ← add_div]
  rw [div_eq_one_iff_eq hn]
  linear_combination -hmul

/-- The real constant `beta` is positive. -/
lemma beta_pos : 0 < beta Real.sqrt := by
  unfold beta
  have h : 0 < Real.sqrt (3 / 4) := Real.sqrt_pos.mpr (by norm_num)
  exact mul_pos (mul_pos h (by norm_num)) (by norm_num)

/-- For a unit quaternion the gravity direction it implies has accelerometer norm one. -/
lemma accelNorm_impliedGravity (q : Q ℝ) (hq : normSq q = 1) :
    accelNorm Real.sqrt (impliedGravity q) = 1 := by
  unfold normSq at hq
  have h : (2 * q.q2 * q.q4 - 2 * q.q1 * q.q3) * (2 * q.q2 * q.q4 - 2 * q.q1 * q.q3)
      + (2 * q.q1 * q.q2 + 2 * q.q3 * q.q4) * (2 * q.q1 * q.q2 + 2 * q.q3 * q.q4)
      + (1 - 2 * q.q2 ^ 2 - 2 * q.q3 ^ 2) * (1 - 2 * q.q2 ^ 2 - 2 * q.q3 ^ 2) = 1 := by
    linear_combination 4 * (q.q2 ^ 2 + q.q3 ^ 2) * hq
  simp only [accelNorm, impliedGravity]
  rw [h, Real.sqrt_one]

/-- When the accelerometer reading is the gravity direction implied by a unit prior
quaternion, the un-normalised gradient is the zero vector. -/
lemma gradientOf_impliedGravity (q : Q ℝ) (hq : normSq q = 1) :
    gradientOf Real.sqrt (impliedGravity q) q = ⟨0, 0, 0, 0⟩ := by
  rw [gradientOf, accelNorm_impliedGravity q hq]
  simp only [scaleV, div_one, SEqHatDot, objective, impliedGravity]
  congr 1 <;> ring

/-- The 4-component norm of the zero vector is zero. -/
lemma quatNorm_zero : quatNorm Real.sqrt (⟨0, 0, 0, 0⟩ : Q ℝ) = 0 := by
  simp [quatNorm]

/-- The 4-component norm of a unit quaternion is one. -/
lemma quatNorm_of_unit (q : Q ℝ) (hq : normSq q = 1) : quatNorm Real.sqrt q = 1 := by
  unfold normSq at hq
  have h : q.q1 * q.q1 + q.q2 * q.q2 + q.q3 * q.q3 + q.q4 * q.q4 = 1 := by
    linear_combination hq
  simp only [quatNorm]
  rw [h, Real.sqrt_one]

/-- With that accelerometer reading the update has no result, whatever the gyroscope
reading and the time step. -/
lemma filterUpdateC_impliedGravity (w : V ℝ) (q : Q ℝ) (deltat : ℝ) (hq : normSq q = 1) :
    filterUpdateC Real.sqrt w (impliedGravity q) q deltat = none := by
  apply filterUpdateC_of_gradNorm_zero
  rw [gradientOf_impliedGravity q hq, quatNorm_zero]

/-- Normalising a unit quaternion returns it. -/
lemma normaliseQ_of_unit (q : Q ℝ) (hq : normSq q = 1) : normaliseQ Real.sqrt q = some q := by
  rw [normaliseQ_of_ne Real.sqrt q (by rw [quatNorm_of_unit q hq]; exact one_ne_zero),
    quatNorm_of_unit q hq]
  simp [scaleQ]

/-- With a zero time step the integration leaves the prior quaternion as it is. -/
lemma integrate_zero (sqrt : ℝ → ℝ) (q d g : Q ℝ) : integrate sqrt q d g 0 = q := by
  simp [integrate]

/-- The norm of a Hamilton quaternion is the 4-component norm the source computes. -/
lemma quatNorm_ofQuaternion (p : Quaternion ℝ) :
    quatNorm Real.sqrt (Q.ofQuaternion p) = ‖p‖ := by
  rw [norm_eq_sqrt_real_inner, Quaternion.inner_self, Quaternion.normSq_def']
  simp only [quatNorm, Q.ofQuaternion]
  congr 1
  ring

/-- The integration step with a zero correction is `q + deltat * (1/2) * (q ⊗ (0, w))`. -/
lemma integrate_zero_gradient (w : V ℝ) (q : Q ℝ) (deltat : ℝ) :
    integrate Real.sqrt q (SEqDot_omega q w) ⟨0, 0, 0, 0⟩ deltat
      = Q.ofQuaternion
          (q.toQuaternion + (deltat * (1 / 2)) • (q.toQuaternion * w.toPure)) := by
  simp only [integrate, SEqDot_omega, Q.ofQuaternion, Q.toQuaternion, V.toPure,
    Quaternion.add_re, Quaternion.add_imI, Quaternion.add_imJ, Quaternion.add_imK,
    Quaternion.smul_re, Quaternion.smul_imI, Quaternion.smul_imJ, Quaternion.smul_imK,
    Quaternion.mul_re, Quaternion.mul_imI, Quaternion.mul_imJ, Quaternion.mul_imK,
    smul_eq_mul]
  congr 1 <;> norm_num <;> ring

/-- For a unit prior the gyroscope-integrated quaternion is not zero. -/
lemma gyro_integrated_ne_zero (w : V ℝ) (q : Q ℝ) (deltat : ℝ) (hq : normSq q = 1) :
    q.toQuaternion + (deltat * (1 / 2)) • (q.toQuaternion * w.toPure) ≠ 0 := by
  intro h
  have hn := congrArg Quaternion.normSq h
  rw [Quaternion.normSq_def', map_zero] at hn
  simp only [Q.toQuaternion, V.toPure, Quaternion.add_re, Quaternion.add_imI,
    Quaternion.add_imJ, Quaternion.add_imK, Quaternion.smul_re, Quaternion.smul_imI,
    Quaternion.smul_imJ, Quaternion.smul_imK, Quaternion.mul_re, Quaternion.mul_imI,
    Quaternion.mul_imJ, Quaternion.mul_imK, smul_eq_mul] at hn
  unfold normSq at hq
  have hpos : 0 ≤ deltat ^ 2 * (w.x ^ 2 + w.y ^ 2 + w.z ^ 2) := by positivity
  have hid : (1 : ℝ) + deltat ^ 2 * (w.x ^ 2 + w.y ^ 2 + w.z ^ 2) / 4 = 0 := by
    linear_combination hn - (1 + deltat ^ 2 * (w.x ^ 2 + w.y ^ 2 + w.z ^ 2) / 4) * hq
  linarith

/-- Scaling the accelerometer reading by a positive factor scales its norm by it. -/
lemma accelNorm_scale (k : ℝ) (hk : 0 < k) (a : V ℝ) :
    accelNorm Real.sqrt ⟨k * a.x, k * a.y, k * a.z⟩ = k * accelNorm Real.sqrt a := by
  simp only [accelNorm]
  have h : k * a.x * (k * a.x) + k * a.y * (k * a.y) + k * a.z * (k * a.z)
      = k ^ 2 * (a.x * a.x + a.y * a.y + a.z * a.z) := by ring
  rw [h, Real.sqrt_mul (sq_nonneg k), Real.sqrt_sq hk.le]

/-- The normalised accelerometer reading does not change under a positive scaling. -/
lemma normaliseAccel_scale (k : ℝ) (hk : 0 < k) (a : V ℝ) :
    normaliseAccel Real.sqrt ⟨k * a.x, k * a.y, k * a.z⟩ = normaliseAccel Real.sqrt a := by
  unfold normaliseAccel
  simp only [accelNorm_scale k hk a]
  by_cases hn : accelNorm Real.sqrt a = 0
  · simp [hn]
  · have hkn : k * accelNorm Real.sqrt a ≠ 0 := mul_ne_zero hk.ne.symm hn
    simp only [hn, hkn, if_false, scaleV, mul_div_mul_left _ _ hk.ne.symm]

/-- A sum of four real squares is zero only when each term is. -/
lemma four_mul_self_eq_zero (a b c d : ℝ) (h : a * a + b * b + c * c + d * d = 0) :
    a = 0 ∧ b = 0 ∧ c = 0 ∧ d = 0 := by
  have ha := mul_self_nonneg a
  have hb := mul_self_nonneg b
  have hc := mul_self_nonneg c
  have hd := mul_self_nonneg d
  refine ⟨?_, ?_, ?_, ?_⟩ <;> apply mul_self_eq_zero.mp <;> linarith

/-- The dot product of two unit quaternions is at most one. -/
lemma dot_le_one (q g : Q ℝ) (hq : normSq q = 1) (hg : normSq g = 1) :
    q.q1 * g.q1 + q.q2 * g.q2 + q.q3 * g.q3 + q.q4 * g.q4 ≤ 1 := by
  unfold normSq at hq hg
  nlinarith [sq_nonneg (q.q1 - g.q1), sq_nonneg (q.q2 - g.q2), sq_nonneg (q.q3 - g.q3),
    sq_nonneg (q.q4 - g.q4)]

/-- The integrated quaternion is not zero when the prior and the correction direction are
unit vectors and `beta * deltat` lies in `[0, 1)`: its component along the prior is
`1 - beta * deltat * (q · g)`, and `q · g ≤ 1`. -/
lemma quatNorm_integrate_ne_zero (w : V ℝ) (q g : Q ℝ) (deltat : ℝ) (hq : normSq q = 1)
    (hg : normSq g = 1) (hdt : 0 ≤ deltat) (hb : beta Real.sqrt * deltat < 1) :
    quatNorm Real.sqrt (integrate Real.sqrt q (SEqDot_omega q w) g deltat) ≠ 0 := by
  intro h
  have hβ := beta_pos
  have hcs := dot_le_one q g hq hg
  unfold normSq at hq hg
  simp only [quatNorm, integrate, SEqDot_omega] at h
  generalize beta Real.sqrt = b at h hb hβ
  have hs := (Real.sqrt_eq_zero (add_nonneg (add_nonneg (add_nonneg (mul_self_nonneg _)
      (mul_self_nonneg _)) (mul_self_nonneg _)) (mul_self_nonneg _))).mp h
  obtain ⟨h1, h2, h3, h4⟩ := four_mul_self_eq_zero _ _ _ _ hs
  norm_num at h1 h2 h3 h4
  have hdot : b * deltat * (q.q1 * g.q1 + q.q2 * g.q2 + q.q3 * g.q3 + q.q4 * g.q4) = 1 := by
    linear_combination hq - q.q1 * h1 - q.q2 * h2 - q.q3 * h3 - q.q4 * h4
  have hbd : 0 ≤ b * deltat := mul_nonneg hβ.le hdt
  have hle := mul_le_mul_of_nonneg_left hcs hbd
  linarith

/-- The constant `beta` is below one (it is about `0.0756`). -/
lemma beta_lt_one : beta Real.sqrt < 1 := by
  unfold beta
  have h1 : Real.sqrt (3 / 4) ≤ 1 := Real.sqrt_le_one.mpr (by norm_num)
  have h2 : Real.sqrt (3 / 4) * (13176795 / 4194304) * (14913081 / 536870912)
      = Real.sqrt (3 / 4) * ((13176795 / 4194304) * (14913081 / 536870912)) := by ring
  rw [h2]
  have h3 : ((13176795 : ℝ) / 4194304) * (14913081 / 536870912) < 1 := by norm_num
  have h4 : (0 : ℝ) ≤ (13176795 / 4194304) * (14913081 / 536870912) := by norm_num
  calc Real.sqrt (3 / 4) * ((13176795 / 4194304) * (14913081 / 536870912))
      ≤ 1 * ((13176795 / 4194304) * (14913081 / 536870912)) :=
        mul_le_mul_of_nonneg_right h1 h4
    _ < 1 := by rw [one_mul]; exact h3

/-- Each entry of `objectiveJacobian` is the derivative of one component of the objective
function in one component of the quaternion, the other components and the accelerometer
reading held fixed. -/
lemma hasDerivAt_objective (q : Q ℝ) (a : V ℝ) (j : Fin 3) (i : Fin 4) :
    HasDerivAt (fun t => (objective (q.set i t) a).get j) (objectiveJacobian q j i)
      (q.get i) := by
  fin_cases j <;> fin_cases i <;>
    simp only [objective, Q.set, Q.get, V.get, objectiveJacobian, Fin.zero_eta, Fin.mk_one,
      Fin.reduceFinMk, Matrix.cons_val_zero, Matrix.cons_val_one, Matrix.head_cons,
      Matrix.cons_val_two, Matrix.tail_cons, Matrix.cons_val_three] <;>
    refine HasDerivAt.congr_deriv
      (by
        repeat
          first
          | exact hasDerivAt_id' _
          | exact hasDerivAt_const _ _
          | apply HasDerivAt.sub
          | apply HasDerivAt.add
          | apply HasDerivAt.mul)
      (by ring)

/-- Writing a component back in its place leaves the quaternion as it is. -/
lemma Q.set_get (q : Q ℝ) (i : Fin 4) : q.set i (q.get i) = q := by
  fin_cases i <;> rfl

/-- The macro expansion of `beta` is the product of `sqrt (3/4)` and `gyroMeasError`. -/
lemma beta_eq_sqrt_mul_gyroMeasError (sqrt : ℝ → ℝ) :
    beta sqrt = sqrt (3 / 4) * gyroMeasError := by
  unfold beta gyroMeasError
  ring

/-- The value of `gyroMeasError` in the source is above `π * (5/180)`, by less than
`1e-8` (it is `0.0872664657` against `0.0872664626`). -/
lemma gyroMeasError_bounds :
    Real.pi * (5 / 180) < gyroMeasError ∧ gyroMeasError - Real.pi * (5 / 180) < 1e-8 := by
  have h1 := Real.pi_gt_d20
  have h2 := Real.pi_lt_d20
  unfold gyroMeasError
  constructor
  · have h3 : (3.14159265358979323847 : ℝ) * (5 / 180)
        < (13176795 / 4194304) * (14913081 / 536870912) := by norm_num
    have h4 : Real.pi * (5 / 180) < 3.14159265358979323847 * (5 / 180) :=
      mul_lt_mul_of_pos_right h2 (by norm_num)
    linarith
  · have h3 : ((13176795 : ℝ) / 4194304) * (14913081 / 536870912)
        - 3.14159265358979323846 * (5 / 180) < 1e-8 := by norm_num
    have h4 : (3.14159265358979323846 : ℝ) * (5 / 180) < Real.pi * (5 / 180) :=
      mul_lt_mul_of_pos_right h1 (by norm_num)
    linarith

/-- The objective function does not change when the quaternion is negated. -/
lemma objective_neg (q : Q ℝ) (a : V ℝ) : objective (Q.neg q) a = objective q a := by
  simp only [objective, Q.neg]
  congr 1 <;> ring

/-- The un-normalised gradient changes sign with the quaternion. -/
lemma SEqHatDot_neg (q : Q ℝ) (f : V ℝ) : SEqHatDot (Q.neg q) f = Q.neg (SEqHatDot q f) := by
  simp only [SEqHatDot, Q.neg]
  congr 1 <;> ring

/-- The gyroscope derivative changes sign with the quaternion. -/
lemma SEqDot_omega_neg (q : Q ℝ) (w : V ℝ) :
    SEqDot_omega (Q.neg q) w = Q.neg (SEqDot_omega q w) := by
  simp only [SEqDot_omega, Q.neg]
  congr 1 <;> ring

/-- The 4-component norm does not see a change of sign. -/
lemma quatNorm_neg (sqrt : ℝ → ℝ) (p : Q ℝ) : quatNorm sqrt (Q.neg p) = quatNorm sqrt p := by
  simp only [quatNorm, Q.neg]
  congr 1
  ring

/-- Normalisation commutes with negation. -/
lemma normaliseQ_neg (sqrt : ℝ → ℝ) (p : Q ℝ) :
    normaliseQ sqrt (Q.neg p) = Option.map Q.neg (normaliseQ sqrt p) := by
  unfold normaliseQ
  simp only [quatNorm_neg]
  by_cases h : quatNorm sqrt p = 0
  · simp [h]
  · simp only [h, if_false, Option.map_some', scaleQ, Q.neg, neg_div]

/-- The integration step commutes with negating the prior, the gyroscope derivative and
the correction direction together. -/
lemma integrate_neg (sqrt : ℝ → ℝ) (q d g : Q ℝ) (deltat : ℝ) :
    integrate sqrt (Q.neg q) (Q.neg d) (Q.neg g) deltat = Q.neg (integrate sqrt q d g deltat) := by
  simp only [integrate, Q.neg]
  congr 1 <;> ring

/-! ### Arithmetic of the values a `float` can hold -/

/-- C1. Unit-norm invariant: whenever the three norms the code divides by (the
accelerometer norm, the norm of the un-normalised gradient, the norm of the integrated
quaternion) are not zero, `filterUpdateC` returns a quaternion and its components satisfy
`q1^2 + q2^2 + q3^2 + q4^2 = 1`. -/
theorem filterUpdateC_unit_norm (w a : V ℝ) (q : Q ℝ) (deltat : ℝ)
    (ha : accelNorm Real.sqrt a ≠ 0)
    (hg : quatNorm Real.sqrt (gradientOf Real.sqrt a q) ≠ 0)
    (hq : quatNorm Real.sqrt (integratedOf Real.sqrt w a q deltat) ≠ 0) :
    ∃ r : Q ℝ, filterUpdateC Real.sqrt w a q deltat = some r ∧
      r.q1 ^ 2 + r.q2 ^ 2 + r.q3 ^ 2 + r.q4 ^ 2 = 1 :=
  ⟨_, filterUpdateC_eq_some Real.sqrt w a q deltat ha hg hq, normSq_scaleQ _ hq⟩

/-- C1 at gyro `(0,0,0)`, accel `(1,0,0)`, prior `(1,0,0,0)`, `deltat = 1`: the gradient
is `(0,0,2,0)` and the integrated quaternion is `(1, 0, -beta, 0)`. -/
theorem filterUpdateC_unit_norm_witness :
    ∃ r : Q ℝ, filterUpdateC Real.sqrt ⟨0, 0, 0⟩ ⟨1, 0, 0⟩ ⟨1, 0, 0, 0⟩ 1 = some r ∧
      r.q1 ^ 2 + r.q2 ^ 2 + r.q3 ^ 2 + r.q4 ^ 2 = 1 := by
  have ha : accelNorm Real.sqrt (⟨1, 0, 0⟩ : V ℝ) = 1 := by simp [accelNorm]
  have hgr : gradientOf Real.sqrt (⟨1, 0, 0⟩ : V ℝ) ⟨1, 0, 0, 0⟩ = ⟨0, 0, 2, 0⟩ := by
    simp [gradientOf, ha, SEqHatDot, objective, scaleV]
  have hg : quatNorm Real.sqrt (gradientOf Real.sqrt (⟨1, 0, 0⟩ : V ℝ) ⟨1, 0, 0, 0⟩) = 2 := by
    rw [hgr]
    simp [quatNorm]
  have hq : quatNorm Real.sqrt
      (integratedOf Real.sqrt (⟨0, 0, 0⟩ : V ℝ) ⟨1, 0, 0⟩ ⟨1, 0, 0, 0⟩ 1) ≠ 0 := by
    simp only [integratedOf, normalisedGradientOf, hg, hgr, integrate, scaleQ, SEqDot_omega,
      quatNorm]
    apply Real.sqrt_ne_zero'.mpr
    norm_num
    exact add_pos_of_pos_of_nonneg one_pos (mul_self_nonneg _)
  exact filterUpdateC_unit_norm _ _ _ _ (by rw [ha]; norm_num) (by rw [hg]; norm_num) hq

/-- C2, refuted as stated: at the unit prior `(1,0,0,0)`, gyro `(0,0,0)`, accel `(0,0,1)`
(the gravity direction that prior implies) and `deltat = 1`, `filterUpdateC` does not
return the prior: the gradient is zero and its normalisation divides `0` by `0`. -/
theorem filterUpdateC_no_motion_counterexample :
    normSq (⟨1, 0, 0, 0⟩ : Q ℝ) = 1 ∧
    impliedGravity (⟨1, 0, 0, 0⟩ : Q ℝ) = ⟨0, 0, 1⟩ ∧
    filterUpdateC Real.sqrt ⟨0, 0, 0⟩ ⟨0, 0, 1⟩ (⟨1, 0, 0, 0⟩ : Q ℝ) 1 ≠ some ⟨1, 0, 0, 0⟩ := by
  have hq : normSq (⟨1, 0, 0, 0⟩ : Q ℝ) = 1 := by simp [normSq]
  have hi : impliedGravity (⟨1, 0, 0, 0⟩ : Q ℝ) = ⟨0, 0, 1⟩ := by simp [impliedGravity]
  refine ⟨hq, hi, ?_⟩
  have h := filterUpdateC_impliedGravity ⟨0, 0, 0⟩ (⟨1, 0, 0, 0⟩ : Q ℝ) 1 hq
  rw [hi] at h
  rw [h]
  exact Option.noConfusion

/-- C2, amended: for every unit prior `q` and every `deltat`, with gyro `(0,0,0)` and accel
the gravity direction implied by `q`, the un-normalised gradient is exactly zero, so its
normalisation divides by a zero norm and `filterUpdateC` returns no quaternion; the steps
after that normalisation, run with a zero correction, return `q` unchanged. -/
theorem filterUpdateC_no_motion (q : Q ℝ) (deltat : ℝ) (hq : normSq q = 1) :
    gradientOf Real.sqrt (impliedGravity q) q = ⟨0, 0, 0, 0⟩ ∧
    filterUpdateC Real.sqrt ⟨0, 0, 0⟩ (impliedGravity q) q deltat = none ∧
    gyroOnlyUpdate Real.sqrt ⟨0, 0, 0⟩ q deltat = some q := by
  refine ⟨gradientOf_impliedGravity q hq, filterUpdateC_impliedGravity _ q deltat hq, ?_⟩
  have hi : integrate Real.sqrt q (SEqDot_omega q ⟨0, 0, 0⟩) ⟨0, 0, 0, 0⟩ deltat = q := by
    simp [integrate, SEqDot_omega]
  unfold gyroOnlyUpdate
  rw [hi, normaliseQ_of_unit q hq]

/-- C2, amended, at the prior `(1,0,0,0)` and `deltat = 1`. -/
theorem filterUpdateC_no_motion_witness :
    gradientOf Real.sqrt (impliedGravity (⟨1, 0, 0, 0⟩ : Q ℝ)) ⟨1, 0, 0, 0⟩ = ⟨0, 0, 0, 0⟩ ∧
    filterUpdateC Real.sqrt ⟨0, 0, 0⟩ (impliedGravity (⟨1, 0, 0, 0⟩ : Q ℝ)) ⟨1, 0, 0, 0⟩ 1
      = none ∧
    gyroOnlyUpdate Real.sqrt ⟨0, 0, 0⟩ (⟨1, 0, 0, 0⟩ : Q ℝ) 1 = some ⟨1, 0, 0, 0⟩ :=
  filterUpdateC_no_motion ⟨1, 0, 0, 0⟩ 1 (by simp [normSq])

/-- C3, refuted as stated: with the unit prior `(1,0,0,0)`, gyro `(1,2,3)`, accel `(0,0,0)`
and `deltat = 0`, `filterUpdateC` does not return the prior: the accelerometer norm is zero
and the first normalisation divides `0` by `0`. -/
theorem filterUpdateC_zero_deltat_counterexample :
    normSq (⟨1, 0, 0, 0⟩ : Q ℝ) = 1 ∧
    filterUpdateC Real.sqrt ⟨1, 2, 3⟩ ⟨0, 0, 0⟩ (⟨1, 0, 0, 0⟩ : Q ℝ) 0 ≠ some ⟨1, 0, 0, 0⟩ := by
  refine ⟨by simp [normSq], ?_⟩
  rw [filterUpdateC_of_accelNorm_zero Real.sqrt _ _ _ _ (by simp [accelNorm])]
  exact Option.noConfusion

/-- C3, amended: for every unit prior `q`, every gyro vector and every accel vector whose
norm is not zero and whose un-normalised gradient is not zero,
`filterUpdateC (gyro, accel, q, 0)` returns `q` unchanged. -/
theorem filterUpdateC_zero_deltat (w a : V ℝ) (q : Q ℝ) (hq : normSq q = 1)
    (ha : accelNorm Real.sqrt a ≠ 0)
    (hg : quatNorm Real.sqrt (gradientOf Real.sqrt a q) ≠ 0) :
    filterUpdateC Real.sqrt w a q 0 = some q := by
  rw [filterUpdateC_eq_normaliseQ Real.sqrt w a q 0 ha hg, integratedOf, integrate_zero,
    normaliseQ_of_unit q hq]

/-- C3, amended, at gyro `(1,2,3)`, accel `(1,0,0)` and the prior `(1,0,0,0)`. -/
theorem filterUpdateC_zero_deltat_witness :
    filterUpdateC Real.sqrt ⟨1, 2, 3⟩ ⟨1, 0, 0⟩ (⟨1, 0, 0, 0⟩ : Q ℝ) 0 = some ⟨1, 0, 0, 0⟩ := by
  have ha : accelNorm Real.sqrt (⟨1, 0, 0⟩ : V ℝ) = 1 := by simp [accelNorm]
  have hgr : gradientOf Real.sqrt (⟨1, 0, 0⟩ : V ℝ) ⟨1, 0, 0, 0⟩ = ⟨0, 0, 2, 0⟩ := by
    simp [gradientOf, ha, SEqHatDot, objective, scaleV]
  have hg : quatNorm Real.sqrt (gradientOf Real.sqrt (⟨1, 0, 0⟩ : V ℝ) ⟨1, 0, 0, 0⟩) = 2 := by
    rw [hgr]
    simp [quatNorm]
  exact filterUpdateC_zero_deltat _ _ _ (by simp [normSq]) (by rw [ha]; norm_num)
    (by rw [hg]; norm_num)

/-- C4, refuted as stated: with the unit prior `(1,0,0,0)`, accel `(0,0,1)`, gyro `(1,0,0)`
and `deltat = 1` the claim promises `(1, 1/2, 0, 0)` divided by `sqrt (1 + (1/2)^2)`, but
`filterUpdateC` returns no quaternion: the gradient is zero and its normalisation divides
`0` by `0`. -/
theorem filterUpdateC_pure_gyro_counterexample :
    impliedGravity (⟨1, 0, 0, 0⟩ : Q ℝ) = ⟨0, 0, 1⟩ ∧
    filterUpdateC Real.sqrt ⟨1, 0, 0⟩ ⟨0, 0, 1⟩ (⟨1, 0, 0, 0⟩ : Q ℝ) 1
      ≠ some ⟨1 / Real.sqrt (1 + (1 * 1 / 2) ^ 2),
          (1 * 1 / 2) / Real.sqrt (1 + (1 * 1 / 2) ^ 2), 0, 0⟩ := by
  have hi : impliedGravity (⟨1, 0, 0, 0⟩ : Q ℝ) = ⟨0, 0, 1⟩ := by simp [impliedGravity]
  refine ⟨hi, ?_⟩
  have h := filterUpdateC_impliedGravity ⟨1, 0, 0⟩ (⟨1, 0, 0, 0⟩ : Q ℝ) 1 (by simp [normSq])
  rw [hi] at h
  rw [h]
  exact Option.noConfusion

/-- C4, amended: for every unit prior `q`, every gyro vector `w` and every `deltat`, when
accel is the gravity direction implied by `q` the gradient normalisation divides by a zero
norm and `filterUpdateC` returns no quaternion; the steps after that normalisation, run
with a zero correction, return the normalisation of `q + deltat * (1/2) * (q ⊗ (0, w))`
(Hamilton product), in which `beta` does not occur. -/
theorem filterUpdateC_pure_gyro (w : V ℝ) (q : Q ℝ) (deltat : ℝ) (hq : normSq q = 1) :
    filterUpdateC Real.sqrt w (impliedGravity q) q deltat = none ∧
    gyroOnlyUpdate Real.sqrt w q deltat
      = some (Q.ofQuaternion
          (‖q.toQuaternion + (deltat * (1 / 2)) • (q.toQuaternion * w.toPure)‖⁻¹ •
            (q.toQuaternion + (deltat * (1 / 2)) • (q.toQuaternion * w.toPure)))) := by
  refine ⟨filterUpdateC_impliedGravity w q deltat hq, ?_⟩
  have hne := norm_ne_zero_iff.mpr (gyro_integrated_ne_zero w q deltat hq)
  unfold gyroOnlyUpdate
  rw [integrate_zero_gradient, normaliseQ_of_ne Real.sqrt _
    (by rw [quatNorm_ofQuaternion]; exact hne), quatNorm_ofQuaternion]
  simp only [scaleQ, Q.ofQuaternion, Quaternion.smul_re, Quaternion.smul_imI,
    Quaternion.smul_imJ, Quaternion.smul_imK, smul_eq_mul, div_eq_inv_mul]

/-- C4, amended, at the prior `(1,0,0,0)`, gyro `(1,0,0)` and `deltat = 1`. -/
theorem filterUpdateC_pure_gyro_witness :
    filterUpdateC Real.sqrt ⟨1, 0, 0⟩ (impliedGravity (⟨1, 0, 0, 0⟩ : Q ℝ)) ⟨1, 0, 0, 0⟩ 1
      = none ∧
    gyroOnlyUpdate Real.sqrt ⟨1, 0, 0⟩ (⟨1, 0, 0, 0⟩ : Q ℝ) 1
      = some (Q.ofQuaternion
          (‖(⟨1, 0, 0, 0⟩ : Q ℝ).toQuaternion
              + ((1 : ℝ) * (1 / 2)) • ((⟨1, 0, 0, 0⟩ : Q ℝ).toQuaternion
                * (⟨1, 0, 0⟩ : V ℝ).toPure)‖⁻¹ •
            ((⟨1, 0, 0, 0⟩ : Q ℝ).toQuaternion
              + ((1 : ℝ) * (1 / 2)) • ((⟨1, 0, 0, 0⟩ : Q ℝ).toQuaternion
                * (⟨1, 0, 0⟩ : V ℝ).toPure)))) :=
  filterUpdateC_pure_gyro ⟨1, 0, 0⟩ ⟨1, 0, 0, 0⟩ 1 (by simp [normSq])

/-- C5, refuted as stated: with accel `(0,0,0)`, gyro `(0,0,0)`, prior `(1,0,0,0)` and
`deltat = 1` the accelerometer norm is zero, the source divides by it all the same, and
what `filterUpdateC` returns is not a quaternion (`none` stands for the not-a-number
result, the function has no way to signal an error), so it is not the gyroscope-only
result `(1,0,0,0)`. -/
theorem filterUpdateC_zero_accel_counterexample :
    accelNorm Real.sqrt (⟨0, 0, 0⟩ : V ℝ) = 0 ∧
    normaliseAccel Real.sqrt (⟨0, 0, 0⟩ : V ℝ) = none ∧
    gyroOnlyUpdate Real.sqrt ⟨0, 0, 0⟩ (⟨1, 0, 0, 0⟩ : Q ℝ) 1 = some ⟨1, 0, 0, 0⟩ ∧
    filterUpdateC Real.sqrt ⟨0, 0, 0⟩ ⟨0, 0, 0⟩ (⟨1, 0, 0, 0⟩ : Q ℝ) 1
      ≠ gyroOnlyUpdate Real.sqrt ⟨0, 0, 0⟩ (⟨1, 0, 0, 0⟩ : Q ℝ) 1 := by
  have ha : accelNorm Real.sqrt (⟨0, 0, 0⟩ : V ℝ) = 0 := by simp [accelNorm]
  have hgy : gyroOnlyUpdate Real.sqrt ⟨0, 0, 0⟩ (⟨1, 0, 0, 0⟩ : Q ℝ) 1 = some ⟨1, 0, 0, 0⟩ := by
    have hi : integrate Real.sqrt (⟨1, 0, 0, 0⟩ : Q ℝ) (SEqDot_omega ⟨1, 0, 0, 0⟩ ⟨0, 0, 0⟩)
        ⟨0, 0, 0, 0⟩ 1 = ⟨1, 0, 0, 0⟩ := by
      simp [integrate, SEqDot_omega]
    unfold gyroOnlyUpdate
    rw [hi, normaliseQ_of_unit _ (by simp [normSq])]
  refine ⟨ha, by simp [normaliseAccel, ha], hgy, ?_⟩
  rw [filterUpdateC_of_accelNorm_zero Real.sqrt _ _ _ _ ha, hgy]
  exact Option.noConfusion

/-- C5, amended: for accel `(0,0,0)` and every gyro, prior quaternion and `deltat`, the
accelerometer norm is zero, `filterUpdateC` divides by it without a guard, and its result
is not a quaternion (`none`, the not-a-number result); it neither falls back to
gyroscope-only integration nor signals an error. -/
theorem filterUpdateC_zero_accel (w : V ℝ) (q : Q ℝ) (deltat : ℝ) :
    accelNorm Real.sqrt (⟨0, 0, 0⟩ : V ℝ) = 0 ∧
    normaliseAccel Real.sqrt (⟨0, 0, 0⟩ : V ℝ) = none ∧
    filterUpdateC Real.sqrt w ⟨0, 0, 0⟩ q deltat = none := by
  have ha : accelNorm Real.sqrt (⟨0, 0, 0⟩ : V ℝ) = 0 := by simp [accelNorm]
  exact ⟨ha, by simp [normaliseAccel, ha], filterUpdateC_of_accelNorm_zero Real.sqrt _ _ _ _ ha⟩

/-- C6. Only the direction of accel matters: for every real `k > 0`, every non-zero accel
vector `a`, every gyro `w`, prior `q` and `deltat`, `filterUpdateC (w, k*a, q, deltat)` and
`filterUpdateC (w, a, q, deltat)` are the same (both a quaternion, the same one, or both
without a result when the gradient or the integrated quaternion has zero norm).  The
equality needs no assumption on `a`: for the zero vector both sides have no result. -/
theorem filterUpdateC_accel_scale (k : ℝ) (hk : 0 < k) (w a : V ℝ) (q : Q ℝ) (deltat : ℝ) :
    filterUpdateC Real.sqrt w ⟨k * a.x, k * a.y, k * a.z⟩ q deltat
      = filterUpdateC Real.sqrt w a q deltat := by
  unfold filterUpdateC
  rw [normaliseAccel_scale k hk a]

/-- C6 at `k = 2`, accel `(1,0,0)`, gyro `(0,0,0)`, prior `(1,0,0,0)`, `deltat = 1`. -/
theorem filterUpdateC_accel_scale_witness :
    filterUpdateC Real.sqrt ⟨0, 0, 0⟩ ⟨2 * 1, 2 * 0, 2 * 0⟩ (⟨1, 0, 0, 0⟩ : Q ℝ) 1
      = filterUpdateC Real.sqrt ⟨0, 0, 0⟩ ⟨1, 0, 0⟩ (⟨1, 0, 0, 0⟩ : Q ℝ) 1 :=
  filterUpdateC_accel_scale 2 (by norm_num) ⟨0, 0, 0⟩ ⟨1, 0, 0⟩ ⟨1, 0, 0, 0⟩ 1

/-- Over all real time steps the integrated quaternion can vanish: with the unit prior
`(0,1,0,0)`, accel `(0,0,1)` (norm one), gyro `(0,0,0)` and `deltat = 1 / beta > 0` the
un-normalised gradient is `(0,8,0,0)`, not zero, and the integrated quaternion is
`(0, 1 - beta * (1 / beta), 0, 0)`.  The number `1 / beta` is not one a `float` can hold
(`beta` is a rational multiple of `sqrt 3`), so `filterUpdateC` cannot receive it. -/
theorem integrated_norm_zero_at_inv_beta :
    normSq (⟨0, 1, 0, 0⟩ : Q ℝ) = 1 ∧
    accelNorm Real.sqrt (⟨0, 0, 1⟩ : V ℝ) ≠ 0 ∧
    quatNorm Real.sqrt (gradientOf Real.sqrt (⟨0, 0, 1⟩ : V ℝ) ⟨0, 1, 0, 0⟩) ≠ 0 ∧
    0 < 1 / beta Real.sqrt ∧
    quatNorm Real.sqrt
      (integratedOf Real.sqrt ⟨0, 0, 0⟩ (⟨0, 0, 1⟩ : V ℝ) ⟨0, 1, 0, 0⟩ (1 / beta Real.sqrt))
      = 0 := by
  have ha : accelNorm Real.sqrt (⟨0, 0, 1⟩ : V ℝ) = 1 := by simp [accelNorm]
  have hgr : gradientOf Real.sqrt (⟨0, 0, 1⟩ : V ℝ) ⟨0, 1, 0, 0⟩ = ⟨0, 8, 0, 0⟩ := by
    simp only [gradientOf, ha, SEqHatDot, objective, scaleV]
    congr 1 <;> norm_num
  have h64 : Real.sqrt (8 * 8) = 8 := Real.sqrt_mul_self (by norm_num)
  have hg8 : quatNorm Real.sqrt (⟨0, 8, 0, 0⟩ : Q ℝ) = 8 := by
    simp only [quatNorm, mul_zero, add_zero, zero_add]
    exact h64
  have hg : quatNorm Real.sqrt (gradientOf Real.sqrt (⟨0, 0, 1⟩ : V ℝ) ⟨0, 1, 0, 0⟩) = 8 := by
    rw [hgr, hg8]
  have hb := beta_pos
  refine ⟨by simp [normSq], by rw [ha]; exact one_ne_zero, by rw [hg]; norm_num,
    one_div_pos.mpr hb, ?_⟩
  have hi : integratedOf Real.sqrt ⟨0, 0, 0⟩ (⟨0, 0, 1⟩ : V ℝ) ⟨0, 1, 0, 0⟩
      (1 / beta Real.sqrt) = ⟨0, 0, 0, 0⟩ := by
    simp only [integratedOf, normalisedGradientOf, hgr, hg8, integrate, scaleQ, SEqDot_omega]
    congr 1 <;> field_simp
  rw [hi, quatNorm_zero]

/-- For real inputs, not only those a `float` can hold: for every unit prior `q`, every
accel with non-zero norm whose un-normalised gradient is non-zero, every gyro vector and
every `deltat > 0` with `beta * deltat < 1` (about 13 seconds), the integrated quaternion
computed before the last normalisation has a non-zero norm, so `filterUpdateC` returns a
quaternion. -/
theorem integrated_norm_ne_zero_of_small_step (w a : V ℝ) (q : Q ℝ) (deltat : ℝ) (hq : normSq q = 1)
    (ha : accelNorm Real.sqrt a ≠ 0)
    (hg : quatNorm Real.sqrt (gradientOf Real.sqrt a q) ≠ 0)
    (hdt : 0 < deltat) (hb : beta Real.sqrt * deltat < 1) :
    quatNorm Real.sqrt (integratedOf Real.sqrt w a q deltat) ≠ 0 ∧
    ∃ r : Q ℝ, filterUpdateC Real.sqrt w a q deltat = some r := by
  have hn : quatNorm Real.sqrt (integratedOf Real.sqrt w a q deltat) ≠ 0 :=
    quatNorm_integrate_ne_zero w q _ deltat hq (normSq_scaleQ _ hg) hdt.le hb
  exact ⟨hn, _, filterUpdateC_eq_some Real.sqrt w a q deltat ha hg hn⟩

/-- The small-step bound at gyro `(0,0,0)`, accel `(1,0,0)`, prior `(1,0,0,0)`,
`deltat = 1`. -/
theorem integrated_norm_ne_zero_of_small_step_at_one :
    quatNorm Real.sqrt
      (integratedOf Real.sqrt ⟨0, 0, 0⟩ (⟨1, 0, 0⟩ : V ℝ) ⟨1, 0, 0, 0⟩ 1) ≠ 0 ∧
    ∃ r : Q ℝ, filterUpdateC Real.sqrt ⟨0, 0, 0⟩ ⟨1, 0, 0⟩ (⟨1, 0, 0, 0⟩ : Q ℝ) 1 = some r := by
  have ha : accelNorm Real.sqrt (⟨1, 0, 0⟩ : V ℝ) = 1 := by simp [accelNorm]
  have hgr : gradientOf Real.sqrt (⟨1, 0, 0⟩ : V ℝ) ⟨1, 0, 0, 0⟩ = ⟨0, 0, 2, 0⟩ := by
    simp [gradientOf, ha, SEqHatDot, objective, scaleV]
  have hg : quatNorm Real.sqrt (gradientOf Real.sqrt (⟨1, 0, 0⟩ : V ℝ) ⟨1, 0, 0, 0⟩) = 2 := by
    rw [hgr]
    simp [quatNorm]
  exact integrated_norm_ne_zero_of_small_step _ _ _ _ (by simp [normSq]) (by rw [ha]; norm_num)
    (by rw [hg]; norm_num) one_pos (by rw [mul_one]; exact beta_lt_one)

/-- C8. The un-normalised gradient `SEqHatDot_1 .. SEqHatDot_4` is `J^T * f`, where `J`
is the 3x4 matrix of the partial derivatives of the objective `(f1, f2, f3)` in
`(q1, q2, q3, q4)`; it is also the gradient in `q` of `(1/2) * (f1^2 + f2^2 + f3^2)` with
the accelerometer reading held fixed.  This holds for every quaternion and every
accelerometer reading. -/
theorem SEqHatDot_eq_jacobian_transpose_mul (q : Q ℝ) (a : V ℝ) :
    (∀ j i, HasDerivAt (fun t => (objective (q.set i t) a).get j) (objectiveJacobian q j i)
      (q.get i)) ∧
    (∀ i, (SEqHatDot q (objective q a)).get i
      = ∑ j : Fin 3, objectiveJacobian q j i * (objective q a).get j) ∧
    (∀ i, HasDerivAt
      (fun t => (1 / 2 : ℝ) * ((objective (q.set i t) a).x ^ 2
        + (objective (q.set i t) a).y ^ 2 + (objective (q.set i t) a).z ^ 2))
      ((SEqHatDot q (objective q a)).get i) (q.get i)) := by
  have hsum : ∀ i, (SEqHatDot q (objective q a)).get i
      = ∑ j : Fin 3, objectiveJacobian q j i * (objective q a).get j := by
    intro i
    rw [Fin.sum_univ_three]
    fin_cases i <;>
      simp only [SEqHatDot, objective, Q.get, V.get, objectiveJacobian, Fin.zero_eta,
        Fin.mk_one, Fin.reduceFinMk, Matrix.cons_val_zero, Matrix.cons_val_one,
        Matrix.head_cons, Matrix.cons_val_two, Matrix.tail_cons, Matrix.cons_val_three] <;>
      ring
  refine ⟨hasDerivAt_objective q a, hsum, ?_⟩
  intro i
  have hx := hasDerivAt_objective q a 0 i
  have hy := hasDerivAt_objective q a 1 i
  have hz := hasDerivAt_objective q a 2 i
  have h := (((hx.pow 2).add (hy.pow 2)).add (hz.pow 2)).const_mul (1 / 2 : ℝ)
  refine HasDerivAt.congr_deriv h ?_
  rw [hsum i, Fin.sum_univ_three, Q.set_get]
  simp only [Nat.cast_ofNat, Nat.add_one_sub_one, pow_one]
  ring

/-- C9. The gyroscope quaternion derivative `SEqDot_omega_1 .. SEqDot_omega_4` is one half
of the Hamilton product `q ⊗ (0, wx, wy, wz)`, for every `q` and every gyro vector. -/
theorem SEqDot_omega_eq_half_hamilton (q : Q ℝ) (w : V ℝ) :
    SEqDot_omega q w = Q.ofQuaternion ((1 / 2 : ℝ) • (q.toQuaternion * w.toPure)) := by
  simp only [SEqDot_omega, Q.ofQuaternion, Q.toQuaternion, V.toPure, Quaternion.smul_re,
    Quaternion.smul_imI, Quaternion.smul_imJ, Quaternion.smul_imK, Quaternion.mul_re,
    Quaternion.mul_imI, Quaternion.mul_imJ, Quaternion.mul_imK, smul_eq_mul]
  congr 1 <;> norm_num <;> ring

/-- C10. For every unit prior `q` the predicted direction inside the objective (`f` plus
the normalised accel, that is `(2*q2*q4 - 2*q1*q3, 2*q1*q2 + 2*q3*q4, 1 - 2*q2^2 - 2*q3^2)`)
is the vector part of `conj q ⊗ (0,0,0,1) ⊗ q`, whose scalar part is zero, and it has
Euclidean norm one; hence `f = (0,0,0)` exactly when the normalised accel is that rotated
reference. -/
theorem objective_predicted_direction (q : Q ℝ) (a : V ℝ) (hq : normSq q = 1) :
    (⟨(objective q a).x + a.x, (objective q a).y + a.y, (objective q a).z + a.z⟩ : V ℝ)
      = impliedGravity q ∧
    impliedGravity q
      = ⟨(rotatedGravity q).imI, (rotatedGravity q).imJ, (rotatedGravity q).imK⟩ ∧
    (rotatedGravity q).re = 0 ∧
    Real.sqrt ((impliedGravity q).x ^ 2 + (impliedGravity q).y ^ 2
      + (impliedGravity q).z ^ 2) = 1 ∧
    (objective q a = ⟨0, 0, 0⟩ ↔ a = impliedGravity q) := by
  have hq2 := hq
  unfold normSq at hq2
  refine ⟨?_, ?_, ?_, ?_, ?_⟩
  · simp only [objective, impliedGravity]
    congr 1 <;> ring
  · simp only [impliedGravity, rotatedGravity, Q.toQuaternion, V.toPure, Quaternion.mul_imI,
      Quaternion.mul_imJ, Quaternion.mul_imK, Quaternion.mul_re, Quaternion.star_re,
      Quaternion.star_imI, Quaternion.star_imJ, Quaternion.star_imK]
    congr 1
    · ring
    · ring
    · linear_combination -hq2
  · simp only [rotatedGravity, Q.toQuaternion, V.toPure, Quaternion.mul_imI,
      Quaternion.mul_imJ, Quaternion.mul_imK, Quaternion.mul_re, Quaternion.star_re,
      Quaternion.star_imI, Quaternion.star_imJ, Quaternion.star_imK]
    ring
  · have h := accelNorm_impliedGravity q hq
    simp only [accelNorm] at h
    rw [← h]
    congr 1
    ring
  · simp only [objective, impliedGravity]
    constructor
    · intro h
      have h1 := congrArg V.x h
      have h2 := congrArg V.y h
      have h3 := congrArg V.z h
      simp only at h1 h2 h3
      cases a
      simp only at h1 h2 h3 ⊢
      congr 1
      · linear_combination -h1
      · linear_combination -h2
      · linear_combination -h3
    · intro h
      subst h
      congr 1 <;> ring

/-- C10 at the prior `(1,0,0,0)` and accel `(0,0,1)`. -/
theorem objective_predicted_direction_witness :
    (⟨(objective (⟨1, 0, 0, 0⟩ : Q ℝ) ⟨0, 0, 1⟩).x + 0,
      (objective (⟨1, 0, 0, 0⟩ : Q ℝ) ⟨0, 0, 1⟩).y + 0,
      (objective (⟨1, 0, 0, 0⟩ : Q ℝ) ⟨0, 0, 1⟩).z + 1⟩ : V ℝ)
      = impliedGravity ⟨1, 0, 0, 0⟩ ∧
    impliedGravity (⟨1, 0, 0, 0⟩ : Q ℝ)
      = ⟨(rotatedGravity ⟨1, 0, 0, 0⟩).imI, (rotatedGravity ⟨1, 0, 0, 0⟩).imJ,
          (rotatedGravity ⟨1, 0, 0, 0⟩).imK⟩ ∧
    (rotatedGravity ⟨1, 0, 0, 0⟩).re = 0 ∧
    Real.sqrt ((impliedGravity (⟨1, 0, 0, 0⟩ : Q ℝ)).x ^ 2
      + (impliedGravity (⟨1, 0, 0, 0⟩ : Q ℝ)).y ^ 2
      + (impliedGravity (⟨1, 0, 0, 0⟩ : Q ℝ)).z ^ 2) = 1 ∧
    (objective (⟨1, 0, 0, 0⟩ : Q ℝ) ⟨0, 0, 1⟩ = ⟨0, 0, 0⟩
      ↔ (⟨0, 0, 1⟩ : V ℝ) = impliedGravity ⟨1, 0, 0, 0⟩) :=
  objective_predicted_direction ⟨1, 0, 0, 0⟩ ⟨0, 0, 1⟩ (by simp [normSq])

/-- C11, refuted as stated: the gain `beta` of the source is not
`sqrt (3/4) * (π * (5/180))`: the source has the binary32 literal `3.14159265358979f`
(which is `13176795 / 2^22`, above `π`) where the claim has `π`, and `beta` is larger than
the value the claim gives. -/
theorem beta_ne_pi_formula :
    beta Real.sqrt ≠ Real.sqrt (3 / 4) * (Real.pi * (5 / 180)) := by
  have hs : 0 < Real.sqrt (3 / 4) := Real.sqrt_pos.mpr (by norm_num)
  have hlt : Real.sqrt (3 / 4) * (Real.pi * (5 / 180)) < beta Real.sqrt := by
    rw [beta_eq_sqrt_mul_gyroMeasError]
    exact mul_lt_mul_of_pos_left gyroMeasError_bounds.1 hs
  exact hlt.ne'

/-- C11, amended: the quaternion before the final normalisation is
`prior_q[i] + (gyroDerivative[i] - beta * normalisedGradient[i]) * deltat` for each `i` in
`1..4` (and `filterUpdateC` is the normalisation of that quaternion unless one of the two
earlier divisions is by zero), where the gain `beta` of the macro expansion equals
`sqrt (3/4) * gyroMeasError` with `gyroMeasError` the constant the source writes,
`3.14159265358979f * (5.0f / 180.0f)`: it is not `π * (5/180)` but above it, by less than
`1e-8`, so `beta` is above `sqrt (3/4) * π * (5/180)`, by less than `1e-8`. -/
theorem integrated_formula (w a : V ℝ) (q : Q ℝ) (deltat : ℝ) :
    integratedOf Real.sqrt w a q deltat
      = ⟨q.q1 + ((SEqDot_omega q w).q1
            - beta Real.sqrt * (normalisedGradientOf Real.sqrt a q).q1) * deltat,
         q.q2 + ((SEqDot_omega q w).q2
            - beta Real.sqrt * (normalisedGradientOf Real.sqrt a q).q2) * deltat,
         q.q3 + ((SEqDot_omega q w).q3
            - beta Real.sqrt * (normalisedGradientOf Real.sqrt a q).q3) * deltat,
         q.q4 + ((SEqDot_omega q w).q4
            - beta Real.sqrt * (normalisedGradientOf Real.sqrt a q).q4) * deltat⟩ ∧
    filterUpdateC Real.sqrt w a q deltat
      = (if accelNorm Real.sqrt a = 0 ∨ quatNorm Real.sqrt (gradientOf Real.sqrt a q) = 0
          then none
          else normaliseQ Real.sqrt (integratedOf Real.sqrt w a q deltat)) ∧
    beta Real.sqrt = Real.sqrt (3 / 4) * gyroMeasError ∧
    Real.pi * (5 / 180) < gyroMeasError ∧
    gyroMeasError - Real.pi * (5 / 180) < 1e-8 ∧
    Real.sqrt (3 / 4) * (Real.pi * (5 / 180)) < beta Real.sqrt ∧
    beta Real.sqrt - Real.sqrt (3 / 4) * (Real.pi * (5 / 180)) < 1e-8 := by
  have hs : 0 < Real.sqrt (3 / 4) := Real.sqrt_pos.mpr (by norm_num)
  have hs1 : Real.sqrt (3 / 4) ≤ 1 := Real.sqrt_le_one.mpr (by norm_num)
  obtain ⟨hp1, hp2⟩ := gyroMeasError_bounds
  have hpos : 0 < (gyroMeasError : ℝ) - Real.pi * (5 / 180) := sub_pos.mpr hp1
  have hd : beta Real.sqrt - Real.sqrt (3 / 4) * (Real.pi * (5 / 180))
      = Real.sqrt (3 / 4) * (gyroMeasError - Real.pi * (5 / 180)) := by
    rw [beta_eq_sqrt_mul_gyroMeasError]
    ring
  have hfil : filterUpdateC Real.sqrt w a q deltat
      = (if accelNorm Real.sqrt a = 0 ∨ quatNorm Real.sqrt (gradientOf Real.sqrt a q) = 0
          then none
          else normaliseQ Real.sqrt (integratedOf Real.sqrt w a q deltat)) := by
    by_cases ha : accelNorm Real.sqrt a = 0
    · rw [filterUpdateC_of_accelNorm_zero Real.sqrt w a q deltat ha, if_pos (Or.inl ha)]
    · by_cases hg : quatNorm Real.sqrt (gradientOf Real.sqrt a q) = 0
      · rw [filterUpdateC_of_gradNorm_zero Real.sqrt w a q deltat hg, if_pos (Or.inr hg)]
      · rw [filterUpdateC_eq_normaliseQ Real.sqrt w a q deltat ha hg,
          if_neg (not_or.mpr ⟨ha, hg⟩)]
  refine ⟨rfl, hfil, beta_eq_sqrt_mul_gyroMeasError Real.sqrt, hp1, hp2, ?_, ?_⟩
  · have h := mul_pos hs hpos
    linarith
  · rw [hd]
    calc Real.sqrt (3 / 4) * (gyroMeasError - Real.pi * (5 / 180))
        ≤ 1 * (gyroMeasError - Real.pi * (5 / 180)) :=
          mul_le_mul_of_nonneg_right hs1 hpos.le
      _ < 1e-8 := by rw [one_mul]; exact hp2

/-- C12. Sign equivariance: negating the prior quaternion negates the result, for every
gyro, accel, prior quaternion and `deltat`: `filterUpdateC (w, a, -q, deltat)` is
`-filterUpdateC (w, a, q, deltat)` component-wise (and one has no result exactly when the
other has none). -/
theorem filterUpdateC_neg (w a : V ℝ) (q : Q ℝ) (deltat : ℝ) :
    filterUpdateC Real.sqrt w a (Q.neg q) deltat
      = Option.map Q.neg (filterUpdateC Real.sqrt w a q deltat) := by
  unfold filterUpdateC
  cases hacc : normaliseAccel Real.sqrt a with
  | none => rfl
  | some an =>
    simp only [objective_neg, SEqHatDot_neg, normaliseQ_neg]
    cases hgr : normaliseQ Real.sqrt (SEqHatDot q (objective q an)) with
    | none => rfl
    | some g =>
      simp only [Option.map_some', SEqDot_omega_neg, integrate_neg, normaliseQ_neg]

/-- C13. Fixed correction step: when the accelerometer norm and the norm of the
un-normalised gradient are not zero, the quaternion `filterUpdateC` normalises last lies at
4-component Euclidean distance exactly `beta * |deltat|` from the gyroscope-integrated
quaternion `q + gyroDerivative * deltat`, whatever the objective error `f` is. -/
theorem correction_step_size (w a : V ℝ) (q : Q ℝ) (deltat : ℝ)
    (ha : accelNorm Real.sqrt a ≠ 0)
    (hg : quatNorm Real.sqrt (gradientOf Real.sqrt a q) ≠ 0) :
    filterUpdateC Real.sqrt w a q deltat
      = normaliseQ Real.sqrt (integratedOf Real.sqrt w a q deltat) ∧
    quatNorm Real.sqrt
      (Q.sub (integratedOf Real.sqrt w a q deltat)
        ⟨q.q1 + (SEqDot_omega q w).q1 * deltat, q.q2 + (SEqDot_omega q w).q2 * deltat,
          q.q3 + (SEqDot_omega q w).q3 * deltat, q.q4 + (SEqDot_omega q w).q4 * deltat⟩)
      = beta Real.sqrt * |deltat| := by
  refine ⟨filterUpdateC_eq_normaliseQ Real.sqrt w a q deltat ha hg, ?_⟩
  have hn := normSq_scaleQ (gradientOf Real.sqrt a q) hg
  have hb := beta_pos
  change normSq (normalisedGradientOf Real.sqrt a q) = 1 at hn
  simp only [quatNorm, Q.sub, integratedOf, integrate]
  generalize normalisedGradientOf Real.sqrt a q = g at hn
  generalize SEqDot_omega q w = d
  unfold normSq at hn
  have hsq : (q.q1 + (d.q1 - beta Real.sqrt * g.q1) * deltat - (q.q1 + d.q1 * deltat))
        * (q.q1 + (d.q1 - beta Real.sqrt * g.q1) * deltat - (q.q1 + d.q1 * deltat))
      + (q.q2 + (d.q2 - beta Real.sqrt * g.q2) * deltat - (q.q2 + d.q2 * deltat))
        * (q.q2 + (d.q2 - beta Real.sqrt * g.q2) * deltat - (q.q2 + d.q2 * deltat))
      + (q.q3 + (d.q3 - beta Real.sqrt * g.q3) * deltat - (q.q3 + d.q3 * deltat))
        * (q.q3 + (d.q3 - beta Real.sqrt * g.q3) * deltat - (q.q3 + d.q3 * deltat))
      + (q.q4 + (d.q4 - beta Real.sqrt * g.q4) * deltat - (q.q4 + d.q4 * deltat))
        * (q.q4 + (d.q4 - beta Real.sqrt * g.q4) * deltat - (q.q4 + d.q4 * deltat))
      = (beta Real.sqrt * deltat) ^ 2 := by
    linear_combination (beta Real.sqrt * deltat) ^ 2 * hn
  rw [hsq, Real.sqrt_sq_eq_abs, abs_mul, abs_of_pos hb]

/-- C13 at gyro `(0,0,0)`, accel `(1,0,0)`, prior `(1,0,0,0)`, `deltat = 1`. -/
theorem correction_step_size_witness :
    filterUpdateC Real.sqrt ⟨0, 0, 0⟩ ⟨1, 0, 0⟩ (⟨1, 0, 0, 0⟩ : Q ℝ) 1
      = normaliseQ Real.sqrt (integratedOf Real.sqrt ⟨0, 0, 0⟩ ⟨1, 0, 0⟩ ⟨1, 0, 0, 0⟩ 1) ∧
    quatNorm Real.sqrt
      (Q.sub (integratedOf Real.sqrt ⟨0, 0, 0⟩ ⟨1, 0, 0⟩ (⟨1, 0, 0, 0⟩ : Q ℝ) 1)
        ⟨1 + (SEqDot_omega (⟨1, 0, 0, 0⟩ : Q ℝ) ⟨0, 0, 0⟩).q1 * 1,
          0 + (SEqDot_omega (⟨1, 0, 0, 0⟩ : Q ℝ) ⟨0, 0, 0⟩).q2 * 1,
          0 + (SEqDot_omega (⟨1, 0, 0, 0⟩ : Q ℝ) ⟨0, 0, 0⟩).q3 * 1,
          0 + (SEqDot_omega (⟨1, 0, 0, 0⟩ : Q ℝ) ⟨0, 0, 0⟩).q4 * 1⟩)
      = beta Real.sqrt * |(1 : ℝ)| := by
  have ha : accelNorm Real.sqrt (⟨1, 0, 0⟩ : V ℝ) = 1 := by simp [accelNorm]
  have hgr : gradientOf Real.sqrt (⟨1, 0, 0⟩ : V ℝ) ⟨1, 0, 0, 0⟩ = ⟨0, 0, 2, 0⟩ := by
    simp [gradientOf, ha, SEqHatDot, objective, scaleV]
  have hg : quatNorm Real.sqrt (gradientOf Real.sqrt (⟨1, 0, 0⟩ : V ℝ) ⟨1, 0, 0, 0⟩) = 2 := by
    rw [hgr]
    simp [quatNorm]
  exact correction_step_size ⟨0, 0, 0⟩ ⟨1, 0, 0⟩ ⟨1, 0, 0, 0⟩ 1 (by rw [ha]; norm_num)
    (by rw [hg]; norm_num)

/-- C14. The gyroscope derivative is tangent to the prior quaternion: for every `q` and
every gyro vector the 4-component dot product of `q` with `SEqDot_omega_1 .. 4` is zero, so
the quaternion `q + SEqDot_omega * deltat` has squared norm
`|q|^2 + deltat^2 * |SEqDot_omega|^2`, which is never smaller than `|q|^2`. -/
theorem SEqDot_omega_tangent (q : Q ℝ) (w : V ℝ) (deltat : ℝ) :
    Q.dot q (SEqDot_omega q w) = 0 ∧
    normSq (⟨q.q1 + (SEqDot_omega q w).q1 * deltat, q.q2 + (SEqDot_omega q w).q2 * deltat,
        q.q3 + (SEqDot_omega q w).q3 * deltat, q.q4 + (SEqDot_omega q w).q4 * deltat⟩ : Q ℝ)
      = normSq q + deltat ^ 2 * normSq (SEqDot_omega q w) ∧
    normSq q ≤ normSq (⟨q.q1 + (SEqDot_omega q w).q1 * deltat,
        q.q2 + (SEqDot_omega q w).q2 * deltat, q.q3 + (SEqDot_omega q w).q3 * deltat,
        q.q4 + (SEqDot_omega q w).q4 * deltat⟩ : Q ℝ) := by
  have hdot : Q.dot q (SEqDot_omega q w) = 0 := by
    simp only [Q.dot, SEqDot_omega]
    ring
  have hsq : normSq (⟨q.q1 + (SEqDot_omega q w).q1 * deltat,
        q.q2 + (SEqDot_omega q w).q2 * deltat, q.q3 + (SEqDot_omega q w).q3 * deltat,
        q.q4 + (SEqDot_omega q w).q4 * deltat⟩ : Q ℝ)
      = normSq q + deltat ^ 2 * normSq (SEqDot_omega q w) := by
    have h := hdot
    simp only [Q.dot] at h
    simp only [normSq]
    linear_combination 2 * deltat * h
  refine ⟨hdot, hsq, ?_⟩
  rw [hsq]
  have h1 : 0 ≤ normSq (SEqDot_omega q w) := by
    unfold normSq
    positivity
  have h2 : 0 ≤ deltat ^ 2 * normSq (SEqDot_omega q w) := mul_nonneg (sq_nonneg _) h1
  linarith

end Madgwick
